import Mathlib

/-!
Shallow embedding of the `learn_react_native` repository's executable logic:
the `reset-project.js` utility (directory moves/deletions plus replacement
file writes) and the theming hooks (`useColorScheme`, `useColorScheme.web`,
`useThemeColor` with the `Colors` table).

The filesystem is modelled as a pair of maps from paths (lists of path
components below the project root) to file contents and to a
directory-existence flag.
-/

namespace LearnRN

/-- A path below the project root, as a list of components. -/
abbrev Path := List String

/-- A filesystem snapshot: file contents by path, and which paths are
directories. -/
structure FS where
  files : Path → Option String
  dirs : Path → Bool

/-- The empty filesystem. -/
def fsEmpty : FS := { files := fun _ => none, dirs := fun _ => false }

/-- Real filesystems are well formed: every file and every directory sits
inside a chain of existing parent directories. -/
def FS.WF (fs : FS) : Prop :=
  (∀ q r : Path, q ≠ [] → r ≠ [] → (fs.files (q ++ r)).isSome → fs.dirs q = true) ∧
  (∀ q r : Path, q ≠ [] → r ≠ [] → fs.dirs (q ++ r) = true → fs.dirs q = true)

/-- Relocate the subtree rooted at `src` to `dst` in a path-indexed map
(the common shape of the `files` and `dirs` components of a rename). -/
def relocate {α : Type} (src dst : Path) (g : Path → α) (a : α) : Path → α :=
  fun p => if src <+: p then a else if dst <+: p then g (src ++ p.drop dst.length) else g p

/-- Erase the subtree rooted at `base` in a path-indexed map. -/
def clearUnder {α : Type} (base : Path) (g : Path → α) (a : α) : Path → α :=
  fun p => if base <+: p then a else g p

/-- Embedding of `fs.promises.rename(src, dst)`: the whole subtree at `src` reappears at
`dst`; nothing is left at `src`. -/
def moveDir (src dst : Path) (fs : FS) : FS :=
  { files := relocate src dst fs.files none
    dirs := relocate src dst fs.dirs false }

/-- Embedding of `fs.promises.rm(base, \x7b recursive: true, force: true \x7d)`. -/
def rmTree (base : Path) (fs : FS) : FS :=
  { files := clearUnder base fs.files none
    dirs := clearUnder base fs.dirs false }

/-- Embedding of `fs.promises.mkdir(base, \x7b recursive: true \x7d)`: `base` and all its
ancestors become directories. -/
def mkdirp (base : Path) (fs : FS) : FS :=
  { files := fs.files
    dirs := fun q => if q ≠ [] ∧ q <+: base then true else fs.dirs q }

/-- Embedding of `fs.writeFileSync(p, c)`: create or overwrite the file at `p`. -/
def writeFile (p : Path) (c : String) (fs : FS) : FS :=
  { files := fun q => if q = p then some c else fs.files q
    dirs := fs.dirs }

/-- Embedding of `fs.existsSync` on a top-level name: true when a directory or a file of
that name exists at the project root. -/
def existsOld (fs : FS) (d : String) : Bool :=
  fs.dirs [d] || (fs.files [d]).isSome

/-- Source constant `const oldDirs = ["app", "components", "hooks", "constants", "scripts"];` -/
def oldDirs : List String := ["app", "components", "hooks", "constants", "scripts"]

/-- Source constant `const exampleDir = "app-example";` -/
def exampleDir : String := "app-example"

/-- Source constant `const newAppDir = "app";` -/
def newAppDir : String := "app"

/-- The literal contents of the replacement `app/index.tsx`. -/
def indexContent : String :=
  "import \x7b Text, View \x7d from \"react-native\";\n\nexport default function Index() \x7b\n  return (\n    <View style=\x7b\x7b flex: 1, justifyContent: \"center\", alignItems: \"center\" \x7d\x7d>\n      <Text>Edit app/index.tsx to edit this screen.</Text>\n    </View>\n  );\n\x7d"

/-- The literal contents of the replacement `app/_layout.tsx`. -/
def layoutContent : String :=
  "import \x7b Stack \x7d from \"expo-router\";\n\nexport default function RootLayout() \x7b\n  return <Stack />;\n\x7d"

/-- One iteration of the script's loop over `oldDirs`: skip the name when
nothing exists under it, otherwise move it beneath the archive directory
(preserve) or remove it recursively (delete).

Modelled from the spec: the full loop body of `reset-project.js` is not in
the repository snapshot (only its constants, prompt handling and catch
block are quoted); the per-directory move/delete/skip behavior follows the
spec's operation steps. -/
def processDir (preserve : Bool) (fs : FS) (d : String) : FS :=
  if existsOld fs d then
    if preserve then moveDir [d] [exampleDir, d] fs
    else rmTree [d] fs
  else fs

/-- Modelled from the spec: the script's main sequence (archive-directory
creation when preserving, the loop over the source list, recreation of the
entry-point directory, and the two replacement-file writes), parametrized
by the order in which the source list is processed. -/
def runScriptWith (l : List String) (preserve : Bool) (fs : FS) : FS :=
  writeFile [newAppDir, "_layout.tsx"] layoutContent
    (writeFile [newAppDir, "index.tsx"] indexContent
      (mkdirp [newAppDir]
        (l.foldl (processDir preserve)
          (if preserve then mkdirp [exampleDir] fs else fs))))

/-- Modelled from the spec: the script's main sequence in its declared
order. -/
def runScript (preserve : Bool) (fs : FS) : FS :=
  runScriptWith oldDirs preserve fs

/-- Modelled from the spec: the loop over the source list with fault
injection on the filesystem move/delete primitives. `faults d = true`
means the move or deletion of directory `d` raises. On a fault the loop
stops, returning the filesystem as mutated so far and the failed name. -/
def runDirsE (faults : String → Bool) (preserve : Bool) :
    List String → FS → FS × Option String
  | [], fs => (fs, none)
  | d :: rest, fs =>
    if existsOld fs d then
      if faults d then (fs, some d)
      else
        runDirsE faults preserve rest
          (if preserve then moveDir [d] [exampleDir, d] fs else rmTree [d] fs)
    else runDirsE faults preserve rest fs

/-- Outcome of one run: final filesystem, the logged error message if any,
and the process exit code. -/
structure RunResult where
  fs : FS
  errorMsg : Option String
  exitCode : Nat

/-- Modelled from the spec: the whole script under fault injection. The
quoted catch block logs `Error during script execution: ...` and nothing
else, so the process still exits with code 0; the replacement-file writes
are reached only when the loop completed without fault. -/
def runScriptFault (faults : String → Bool) (preserve : Bool) (fs : FS) : RunResult :=
  match runDirsE faults preserve oldDirs (if preserve then mkdirp [exampleDir] fs else fs) with
  | (fs2, some d) =>
    { fs := fs2
      errorMsg := some ("Error during script execution: " ++ d)
      exitCode := 0 }
  | (fs2, none) =>
    { fs := writeFile [newAppDir, "_layout.tsx"] layoutContent
        (writeFile [newAppDir, "index.tsx"] indexContent (mkdirp [newAppDir] fs2))
      errorMsg := none
      exitCode := 0 }

/-- JavaScript `String.prototype.trim`: strip whitespace from both ends
(expressed structurally over the character list). -/
def jsTrim (s : String) : String :=
  ⟨((s.data.dropWhile Char.isWhitespace).reverse.dropWhile Char.isWhitespace).reverse⟩

/-- JavaScript `String.prototype.toLowerCase` (over the character list). -/
def jsToLower (s : String) : String :=
  ⟨s.data.map Char.toLower⟩

/-- Source line `const userInput = answer.trim().toLowerCase() || "y";` (the empty
string is falsy in JavaScript, so an empty line becomes `"y"`). -/
def normalizeAnswer (answer : String) : String :=
  if jsToLower (jsTrim answer) = "" then "y" else jsToLower (jsTrim answer)

/-- Modelled from the spec: the branch on the normalized answer — `"y"`
selects preserve-by-moving, anything else selects delete. -/
def interpretAnswer (answer : String) : Bool :=
  normalizeAnswer answer = "y"

/-- The tool as driven by one raw line of standard input. -/
def resetProject (answer : String) (fs : FS) : FS :=
  runScript (interpretAnswer answer) fs

/-- The tool under fault injection, driven by one raw input line. -/
def resetProjectFault (faults : String → Bool) (answer : String) (fs : FS) : RunResult :=
  runScriptFault faults (interpretAnswer answer) fs

/-! Section: Theming hooks -/

/-- A resolved color scheme; the framework primitive may also report
`null`, modelled as `none : Option Scheme`. -/
inductive Scheme where
  | light
  | dark
deriving DecidableEq, Repr

/-- Embedding of the re-export `export \x7b useColorScheme \x7d from 'react-native';` — the native hook is a
re-export of the framework primitive, whose reported value is the `sys`
argument. -/
def useColorScheme (sys : Option Scheme) : Option Scheme := sys

/-- Embedding of `useColorScheme.web.ts`: before hydration the hook returns `'light'`;
once `hasHydrated` is set it returns what the framework primitive
reports. -/
def useColorSchemeWeb (hasHydrated : Bool) (sys : Option Scheme) : Option Scheme :=
  if hasHydrated then useColorScheme sys else some Scheme.light

/-- The keys of `Colors.light` / `Colors.dark`. -/
inductive ColorName where
  | text
  | background
  | tint
  | icon
  | tabIconDefault
  | tabIconSelected
deriving DecidableEq, Repr

/-- The `Colors` constant from `constants/Colors.ts`. -/
def Colors (s : Scheme) (n : ColorName) : String :=
  match s, n with
  | Scheme.light, ColorName.text => "#11181C"
  | Scheme.light, ColorName.background => "#fff"
  | Scheme.light, ColorName.tint => "#0a7ea4"
  | Scheme.light, ColorName.icon => "#687076"
  | Scheme.light, ColorName.tabIconDefault => "#687076"
  | Scheme.light, ColorName.tabIconSelected => "#0a7ea4"
  | Scheme.dark, ColorName.text => "#ECEDEE"
  | Scheme.dark, ColorName.background => "#151718"
  | Scheme.dark, ColorName.tint => "#fff"
  | Scheme.dark, ColorName.icon => "#9BA1A6"
  | Scheme.dark, ColorName.tabIconDefault => "#9BA1A6"
  | Scheme.dark, ColorName.tabIconSelected => "#fff"

/-- The `props: { light?: string; dark?: string }` argument of
`useThemeColor`. -/
structure ThemeProps where
  light : Option String
  dark : Option String

/-- Embedding of `props[theme]`. -/
def propColor (props : ThemeProps) : Scheme → Option String
  | Scheme.light => props.light
  | Scheme.dark => props.dark

/-- Embedding of `useThemeColor` from `hooks/useThemeColor.ts`:
`theme = useColorScheme() ?? 'light'`, then `if (colorFromProps)` (a
JavaScript truthiness test, false for `undefined` and for the empty
string) selects the prop color, else `Colors[theme][colorName]`. -/
def useThemeColor (props : ThemeProps) (colorName : ColorName) (sys : Option Scheme) : String :=
  let theme := (useColorScheme sys).getD Scheme.light
  match propColor props theme with
  | some c => if c = "" then Colors theme colorName else c
  | none => Colors theme colorName

/-! Section: Concrete filesystems for witnesses and counterexamples -/

/-- A fault function that never fires. -/
def noFaults : String → Bool := fun _ => false

/-- A fault on the move/delete of the `app` directory. -/
def faultApp : String → Bool := fun d => d == "app"

/-- A project filesystem holding just an empty `app` directory. -/
def fsApp : FS :=
  { files := fun _ => none
    dirs := fun p => p == ["app"] }

/-- A project filesystem holding all five source directories and one
marker file inside each. -/
def fsMarkers : FS :=
  { files := fun p =>
      if p = ["app", "marker-app.txt"] then some "MARK-app"
      else if p = ["components", "marker-components.txt"] then some "MARK-components"
      else if p = ["hooks", "marker-hooks.txt"] then some "MARK-hooks"
      else if p = ["constants", "marker-constants.txt"] then some "MARK-constants"
      else if p = ["scripts", "marker-scripts.txt"] then some "MARK-scripts"
      else none
    dirs := fun p =>
      match p with
      | [d] => oldDirs.contains d
      | _ => false }

/-! Section: Basic lemmas about the filesystem primitives -/

theorem FS.ext2 {a b : FS} (hf : ∀ p, a.files p = b.files p)
    (hd : ∀ p, a.dirs p = b.dirs p) : a = b := by
  cases a
  cases b
  simp only [FS.mk.injEq]
  exact ⟨funext hf, funext hd⟩

theorem singleton_prefix_cons {a x : String} {xs : Path} :
    [a] <+: (x :: xs) ↔ a = x := by
  simp [List.cons_prefix_cons]

theorem singleton_prefix_nil {a : String} : ¬ ([a] <+: ([] : Path)) := by
  simp

theorem pair_prefix_cons {e a x : String} {xs : Path} :
    [e, a] <+: (x :: xs) ↔ e = x ∧ [a] <+: xs := by
  simp [List.cons_prefix_cons]

theorem pair_prefix_singleton {e a x : String} : ¬ ([e, a] <+: [x]) := by
  simp [List.cons_prefix_cons]

theorem relocate_nil {α : Type} {a e : String} (g : Path → α) (v : α) :
    relocate [a] [e, a] g v [] = g [] := by
  simp [relocate]

theorem relocate_head {α : Type} {a e : String} (g : Path → α) (v : α) (r : Path) :
    relocate [a] [e, a] g v (a :: r) = v := by
  simp [relocate, singleton_prefix_cons]

theorem relocate_dest {α : Type} {a e : String} (hae : a ≠ e) (g : Path → α) (v : α) (r : Path) :
    relocate [a] [e, a] g v (e :: a :: r) = g (a :: r) := by
  simp [relocate, singleton_prefix_cons, pair_prefix_cons, hae]

theorem relocate_other {α : Type} {a e x : String} (hxa : x ≠ a) (hxe : x ≠ e)
    (g : Path → α) (v : α) (r : Path) :
    relocate [a] [e, a] g v (x :: r) = g (x :: r) := by
  simp [relocate, singleton_prefix_cons, pair_prefix_cons, Ne.symm hxa, Ne.symm hxe]

theorem relocate_dest_other {α : Type} {a e b : String} (hae : a ≠ e) (hba : b ≠ a)
    (g : Path → α) (v : α) (r : Path) :
    relocate [a] [e, a] g v (e :: b :: r) = g (e :: b :: r) := by
  simp [relocate, singleton_prefix_cons, pair_prefix_cons, hae, Ne.symm hba]

theorem relocate_singleton_e {α : Type} {a e : String} (hae : a ≠ e)
    (g : Path → α) (v : α) :
    relocate [a] [e, a] g v [e] = g [e] := by
  simp [relocate, singleton_prefix_cons, pair_prefix_singleton, hae]

theorem relocate_single_other {α : Type} {a e d : String} (hda : d ≠ a)
    (g : Path → α) (v : α) :
    relocate [a] [e, a] g v [d] = g [d] := by
  simp [relocate, singleton_prefix_cons, pair_prefix_singleton, Ne.symm hda]

theorem clearUnder_nil {α : Type} {a : String} (g : Path → α) (v : α) :
    clearUnder [a] g v [] = g [] := by
  simp [clearUnder]

theorem clearUnder_head {α : Type} {a : String} (g : Path → α) (v : α) (r : Path) :
    clearUnder [a] g v (a :: r) = v := by
  simp [clearUnder, singleton_prefix_cons]

theorem clearUnder_other {α : Type} {a x : String} (hxa : x ≠ a) (g : Path → α) (v : α) (r : Path) :
    clearUnder [a] g v (x :: r) = g (x :: r) := by
  simp [clearUnder, singleton_prefix_cons, Ne.symm hxa]

theorem mkdirp_files (base : Path) (fs : FS) : (mkdirp base fs).files = fs.files := rfl

theorem mkdirp_dirs_head {b : String} (fs : FS) :
    (mkdirp [b] fs).dirs [b] = true := by
  simp [mkdirp]

theorem mkdirp_dirs_single {b d : String} (hdb : d ≠ b) (fs : FS) :
    (mkdirp [b] fs).dirs [d] = fs.dirs [d] := by
  simp [mkdirp, singleton_prefix_cons, hdb]

theorem mkdirp_dirs_long {b x y : String} {r : Path} (fs : FS) :
    (mkdirp [b] fs).dirs (x :: y :: r) = fs.dirs (x :: y :: r) := by
  simp [mkdirp, List.cons_prefix_cons]

theorem writeFile_files_same (p : Path) (c : String) (fs : FS) :
    (writeFile p c fs).files p = some c := by
  simp [writeFile]

theorem writeFile_files_other {p q : Path} (h : q ≠ p) (c : String) (fs : FS) :
    (writeFile p c fs).files q = fs.files q := by
  simp [writeFile, h]

theorem writeFile_dirs (p : Path) (c : String) (fs : FS) :
    (writeFile p c fs).dirs = fs.dirs := rfl

/-! Section: Effect of one loop iteration -/

theorem exampleDir_not_mem_oldDirs : ∀ x ∈ oldDirs, x ≠ exampleDir := by
  decide

theorem newAppDir_ne_exampleDir : newAppDir ≠ exampleDir := by
  decide

/-- Lemma: `existsOld` decomposed on its two components. -/
theorem existsOld_eq_false_iff (fs : FS) (d : String) :
    existsOld fs d = false ↔ fs.dirs [d] = false ∧ fs.files [d] = none := by
  constructor
  · intro h
    simp [existsOld, Bool.or_eq_false_iff] at h
    exact ⟨h.1, Option.not_isSome_iff_eq_none.mp (by simp [h.2])⟩
  · intro ⟨h1, h2⟩
    simp [existsOld, h1, h2]

/-- After its own iteration, a source name no longer exists at top level. -/
theorem processDir_self (pres : Bool) (fs : FS) (d : String) :
    (processDir pres fs d).dirs [d] = false ∧ (processDir pres fs d).files [d] = none := by
  by_cases hex : existsOld fs d = true
  · simp only [processDir, hex, if_true]
    cases pres
    · exact ⟨clearUnder_head fs.dirs false [], clearUnder_head fs.files none []⟩
    · exact ⟨relocate_head fs.dirs false [], relocate_head fs.files none []⟩
  · have hex' : existsOld fs d = false := by simpa using hex
    have h := (existsOld_eq_false_iff fs d).mp hex'
    simp [processDir, hex', h.1, h.2]

/-- An iteration on `x` does not touch the top-level entry of another
name. -/
theorem processDir_top_other (pres : Bool) (fs : FS) {x d : String} (hxd : x ≠ d) :
    (processDir pres fs x).dirs [d] = fs.dirs [d] ∧
      (processDir pres fs x).files [d] = fs.files [d] := by
  by_cases hex : existsOld fs x = true
  · simp only [processDir, hex, if_true]
    cases pres
    · exact ⟨clearUnder_other (Ne.symm hxd) fs.dirs false [],
        clearUnder_other (Ne.symm hxd) fs.files none []⟩
    · exact ⟨relocate_single_other (Ne.symm hxd) fs.dirs false,
        relocate_single_other (Ne.symm hxd) fs.files none⟩
  · simp [processDir, hex]

/-- An iteration on `x ≠ d` leaves everything strictly below top-level
name `d` untouched (for `d` other than the archive directory). -/
theorem processDir_under_other (pres : Bool) (fs : FS) {x d : String}
    (hxd : x ≠ d) (hde : d ≠ exampleDir) (r : Path) :
    (processDir pres fs x).files (d :: r) = fs.files (d :: r) ∧
      (processDir pres fs x).dirs (d :: r) = fs.dirs (d :: r) := by
  by_cases hex : existsOld fs x = true
  · simp only [processDir, hex, if_true]
    cases pres
    · exact ⟨clearUnder_other (Ne.symm hxd) fs.files none r,
        clearUnder_other (Ne.symm hxd) fs.dirs false r⟩
    · exact ⟨relocate_other (Ne.symm hxd) hde fs.files none r,
        relocate_other (Ne.symm hxd) hde fs.dirs false r⟩
  · simp [processDir, hex]

/-- An iteration on `x ≠ d` does not change whether `d` exists at top
level. -/
theorem existsOld_processDir_other (pres : Bool) (fs : FS) {x d : String} (hxd : x ≠ d) :
    existsOld (processDir pres fs x) d = existsOld fs d := by
  have h := processDir_top_other pres fs hxd
  simp [existsOld, h.1, h.2]

/-- A name absent at top level stays absent through the whole loop. -/
theorem fold_preserves_absent (pres : Bool) (l : List String) :
    ∀ fs : FS, ∀ d : String, fs.dirs [d] = false → fs.files [d] = none →
    (l.foldl (processDir pres) fs).dirs [d] = false ∧
      (l.foldl (processDir pres) fs).files [d] = none := by
  induction l with
  | nil => exact fun fs d h1 h2 => ⟨h1, h2⟩
  | cons x xs ih =>
    intro fs d h1 h2
    simp only [List.foldl_cons]
    by_cases hxd : x = d
    · subst hxd
      have hex : existsOld fs x = false := (existsOld_eq_false_iff fs x).mpr ⟨h1, h2⟩
      have hskip : processDir pres fs x = fs := by simp [processDir, hex]
      rw [hskip]
      exact ih fs x h1 h2
    · have h := processDir_top_other pres fs hxd
      exact ih _ d (h.1.trans h1) (h.2.trans h2)

/-- After the loop, every name of the processed list is gone from top
level. -/
theorem fold_clears_mem (pres : Bool) (l : List String) :
    ∀ fs : FS, ∀ d ∈ l,
    (l.foldl (processDir pres) fs).dirs [d] = false ∧
      (l.foldl (processDir pres) fs).files [d] = none := by
  induction l with
  | nil => intro fs d hd; cases hd
  | cons x xs ih =>
    intro fs d hd
    simp only [List.foldl_cons]
    rcases List.mem_cons.mp hd with h | h
    · subst h
      have hself := processDir_self pres fs d
      exact fold_preserves_absent pres xs _ d hself.1 hself.2
    · exact ih _ d h

/-- The loop does not touch paths below a top-level name it never
processes (other than the archive directory). -/
theorem fold_preserves_under (pres : Bool) (l : List String) (d : String)
    (hne : ∀ x ∈ l, x ≠ d) (hde : d ≠ exampleDir) :
    ∀ fs : FS, ∀ r : Path,
    (l.foldl (processDir pres) fs).files (d :: r) = fs.files (d :: r) ∧
      (l.foldl (processDir pres) fs).dirs (d :: r) = fs.dirs (d :: r) := by
  induction l with
  | nil => exact fun fs r => ⟨rfl, rfl⟩
  | cons x xs ih =>
    intro fs r
    simp only [List.foldl_cons]
    have hxd : x ≠ d := hne x (List.mem_cons_self x xs)
    have hstep := processDir_under_other pres fs hxd hde r
    have ihx := ih (fun y hy => hne y (List.mem_cons_of_mem x hy)) (processDir pres fs x) r
    exact ⟨ihx.1.trans hstep.1, ihx.2.trans hstep.2⟩

/-- Once a source name is gone from top level, the loop leaves both its
original subtree and its archived subtree untouched. -/
theorem fold_preserves_archive (l : List String) (d : String)
    (hde : d ≠ exampleDir) (hle : ∀ x ∈ l, x ≠ exampleDir) :
    ∀ fs : FS, ∀ r : Path, fs.dirs [d] = false → fs.files [d] = none →
    (l.foldl (processDir true) fs).files (exampleDir :: d :: r) =
        fs.files (exampleDir :: d :: r) ∧
      (l.foldl (processDir true) fs).files (d :: r) = fs.files (d :: r) := by
  induction l with
  | nil => exact fun fs r _ _ => ⟨rfl, rfl⟩
  | cons x xs ih =>
    intro fs r h1 h2
    simp only [List.foldl_cons]
    have hxe : x ≠ exampleDir := hle x (List.mem_cons_self x xs)
    have hle' : ∀ y ∈ xs, y ≠ exampleDir := fun y hy => hle y (List.mem_cons_of_mem x hy)
    by_cases hxd : x = d
    · subst hxd
      have hex : existsOld fs x = false := (existsOld_eq_false_iff fs x).mpr ⟨h1, h2⟩
      have hskip : processDir true fs x = fs := by simp [processDir, hex]
      rw [hskip]
      exact ih hle' fs r h1 h2
    · have htop := processDir_top_other true fs hxd
      have hstep : (processDir true fs x).files (exampleDir :: d :: r) =
          fs.files (exampleDir :: d :: r) ∧
          (processDir true fs x).files (d :: r) = fs.files (d :: r) := by
        by_cases hex : existsOld fs x = true
        · simp only [processDir, hex, if_true]
          exact ⟨relocate_dest_other hxe (Ne.symm hxd) fs.files none r,
            relocate_other (Ne.symm hxd) hde fs.files none r⟩
        · simp [processDir, hex]
      have ihx := ih hle' (processDir true fs x) r (htop.1.trans h1) (htop.2.trans h2)
      exact ⟨ihx.1.trans hstep.1, ihx.2.trans hstep.2⟩

/-- Preserve mode: the loop relocates the subtree of each existing source
name beneath the archive directory and leaves nothing at the original
path. -/
theorem fold_moves_marker (l : List String) (hle : ∀ x ∈ l, x ≠ exampleDir) :
    ∀ fs : FS, ∀ d ∈ l, ∀ r : Path, existsOld fs d = true →
    (l.foldl (processDir true) fs).files (exampleDir :: d :: r) = fs.files (d :: r) ∧
      (l.foldl (processDir true) fs).files (d :: r) = none := by
  induction l with
  | nil => intro fs d hd; cases hd
  | cons x xs ih =>
    intro fs d hd r hex
    simp only [List.foldl_cons]
    have hle' : ∀ y ∈ xs, y ≠ exampleDir := fun y hy => hle y (List.mem_cons_of_mem x hy)
    by_cases hxd : x = d
    · subst hxd
      have hde : x ≠ exampleDir := hle x (List.mem_cons_self x xs)
      have hmove : processDir true fs x = moveDir [x] [exampleDir, x] fs := by
        simp [processDir, hex]
      rw [hmove]
      have h1 : (moveDir [x] [exampleDir, x] fs).dirs [x] = false :=
        relocate_head fs.dirs false []
      have h2 : (moveDir [x] [exampleDir, x] fs).files [x] = none :=
        relocate_head fs.files none []
      have harch := fold_preserves_archive xs x hde hle' (moveDir [x] [exampleDir, x] fs) r h1 h2
      constructor
      · exact harch.1.trans (relocate_dest hde fs.files none r)
      · exact harch.2.trans (relocate_head fs.files none r)
    · have hd' : d ∈ xs := by
        rcases List.mem_cons.mp hd with h | h
        · exact absurd h.symm hxd
        · exact h
      have hde : d ≠ exampleDir := hle d hd
      have hex' : existsOld (processDir true fs x) d = existsOld fs d :=
        existsOld_processDir_other true fs hxd
      have ihx := ih hle' (processDir true fs x) d hd' r (hex'.trans hex)
      have hunder := processDir_under_other true fs hxd hde r
      exact ⟨ihx.1.trans hunder.1, ihx.2⟩

/-- Delete mode: the loop never creates a file. -/
theorem foldDelete_files_le (l : List String) :
    ∀ fs : FS, ∀ q : Path,
    (l.foldl (processDir false) fs).files q = fs.files q ∨
      (l.foldl (processDir false) fs).files q = none := by
  induction l with
  | nil => exact fun fs q => Or.inl rfl
  | cons x xs ih =>
    intro fs q
    simp only [List.foldl_cons]
    have hstep : (processDir false fs x).files q = fs.files q ∨
        (processDir false fs x).files q = none := by
      by_cases hex : existsOld fs x = true
      · simp only [processDir, hex, if_true, Bool.false_eq_true, if_false]
        simp only [rmTree, clearUnder]
        by_cases hpre : [x] <+: q
        · exact Or.inr (by simp [hpre])
        · exact Or.inl (by simp [hpre])
      · simp [processDir, hex]
    rcases ih (processDir false fs x) q with h | h
    · rcases hstep with h2 | h2
      · exact Or.inl (h.trans h2)
      · exact Or.inr (h.trans h2)
    · exact Or.inr h

/-- Delete mode: the subtree of each existing source name is gone after
the loop. -/
theorem foldDelete_clears (l : List String) :
    ∀ fs : FS, ∀ d ∈ l, ∀ r : Path, existsOld fs d = true →
    (l.foldl (processDir false) fs).files (d :: r) = none := by
  induction l with
  | nil => intro fs d hd; cases hd
  | cons x xs ih =>
    intro fs d hd r hex
    simp only [List.foldl_cons]
    by_cases hxd : x = d
    · subst hxd
      have hrm : processDir false fs x = rmTree [x] fs := by
        simp [processDir, hex]
      rw [hrm]
      have h0 : (rmTree [x] fs).files (x :: r) = none := clearUnder_head fs.files none r
      rcases foldDelete_files_le xs (rmTree [x] fs) (x :: r) with h | h
      · exact h.trans h0
      · exact h
    · have hd' : d ∈ xs := by
        rcases List.mem_cons.mp hd with h | h
        · exact absurd h.symm hxd
        · exact h
      have hex' : existsOld (processDir false fs x) d = existsOld fs d :=
        existsOld_processDir_other false fs hxd
      exact ih (processDir false fs x) d hd' r (hex'.trans hex)

/-! Section: The loop under fault injection -/

/-- A fault-free pass of the loop computes exactly the pure fold. -/
theorem runDirsE_ok (faults : String → Bool) (pres : Bool) (l : List String) :
    ∀ fs fs' : FS, runDirsE faults pres l fs = (fs', none) →
    fs' = l.foldl (processDir pres) fs := by
  induction l with
  | nil =>
    intro fs fs' h
    simpa [runDirsE] using (congrArg Prod.fst h).symm
  | cons x xs ih =>
    intro fs fs' h
    simp only [List.foldl_cons]
    by_cases hex : existsOld fs x = true
    · by_cases hf : faults x = true
      · simp [runDirsE, hex, hf] at h
      · have hstep : processDir pres fs x =
            (if pres then moveDir [x] [exampleDir, x] fs else rmTree [x] fs) := by
          simp [processDir, hex]
        rw [hstep]
        apply ih
        simpa [runDirsE, hex, hf] using h
    · have hskip : processDir pres fs x = fs := by simp [processDir, hex]
      rw [hskip]
      apply ih
      simpa [runDirsE, hex] using h

/-- A faulted pass stops at the first faulting existing directory: the
iterations before it are applied, nothing after it runs, and the state at
the fault is returned unchanged. -/
theorem runDirsE_error (faults : String → Bool) (pres : Bool) (l : List String) :
    ∀ fs fs' : FS, ∀ d : String, runDirsE faults pres l fs = (fs', some d) →
    ∃ pre post, l = pre ++ d :: post ∧
      fs' = pre.foldl (processDir pres) fs ∧
      existsOld fs' d = true ∧ faults d = true := by
  induction l with
  | nil =>
    intro fs fs' d h
    simp [runDirsE] at h
  | cons x xs ih =>
    intro fs fs' d h
    by_cases hex : existsOld fs x = true
    · by_cases hf : faults x = true
      · have h' : fs = fs' ∧ x = d := by
          constructor
          · simpa [runDirsE, hex, hf] using congrArg Prod.fst h
          · simpa [runDirsE, hex, hf] using congrArg Prod.snd h
        rcases h' with ⟨h1, h2⟩
        subst h1
        subst h2
        exact ⟨[], xs, rfl, rfl, hex, hf⟩
      · have h' : runDirsE faults pres xs
            (if pres then moveDir [x] [exampleDir, x] fs else rmTree [x] fs) = (fs', some d) := by
          simpa [runDirsE, hex, hf] using h
        rcases ih _ _ _ h' with ⟨pre, post, hl, hfs, hex', hf'⟩
        refine ⟨x :: pre, post, by rw [hl, List.cons_append], ?_, hex', hf'⟩
        rw [hfs]
        simp only [List.foldl_cons]
        congr 1
        simp [processDir, hex]
    · have h' : runDirsE faults pres xs fs = (fs', some d) := by
        simpa [runDirsE, hex] using h
      rcases ih _ _ _ h' with ⟨pre, post, hl, hfs, hex', hf'⟩
      refine ⟨x :: pre, post, by rw [hl, List.cons_append], ?_, hex', hf'⟩
      rw [hfs]
      simp only [List.foldl_cons]
      congr 1
      simp [processDir, hex]

/-- When none of the listed names exists, the loop is a no-op and cannot
fault. -/
theorem runDirsE_skip_all (faults : String → Bool) (pres : Bool) (l : List String) :
    ∀ fs : FS, (∀ d ∈ l, existsOld fs d = false) →
    runDirsE faults pres l fs = (fs, none) := by
  induction l with
  | nil => intro fs _; rfl
  | cons x xs ih =>
    intro fs hall
    have hx : existsOld fs x = false := hall x (List.mem_cons_self x xs)
    have hxs : ∀ d ∈ xs, existsOld fs d = false :=
      fun d hd => hall d (List.mem_cons_of_mem x hd)
    simp [runDirsE, hx, ih fs hxs]

/-- Creating the archive directory does not change existence of any other
top-level name. -/
theorem existsOld_mkdirp_e (fs : FS) {d : String} (hde : d ≠ exampleDir) :
    existsOld (mkdirp [exampleDir] fs) d = existsOld fs d := by
  simp [existsOld, mkdirp_dirs_single hde, mkdirp_files]

/-! Section: The whole script -/

theorem oldDirs_eq : oldDirs = newAppDir :: ["components", "hooks", "constants", "scripts"] := rfl

theorem restDirs_ne_app : ∀ x ∈ ["components", "hooks", "constants", "scripts"], x ≠ newAppDir := by
  decide

theorem index_path_ne_layout_path :
    ([newAppDir, "index.tsx"] : Path) ≠ [newAppDir, "_layout.tsx"] := by
  decide

/-- The run always ends with the fixed `index.tsx` contents in place. -/
theorem runScriptWith_index (l : List String) (pres : Bool) (fs : FS) :
    (runScriptWith l pres fs).files [newAppDir, "index.tsx"] = some indexContent := by
  unfold runScriptWith
  rw [writeFile_files_other index_path_ne_layout_path]
  exact writeFile_files_same _ _ _

/-- The run always ends with the fixed `_layout.tsx` contents in place. -/
theorem runScriptWith_layout (l : List String) (pres : Bool) (fs : FS) :
    (runScriptWith l pres fs).files [newAppDir, "_layout.tsx"] = some layoutContent := by
  unfold runScriptWith
  exact writeFile_files_same _ _ _

/-- Away from the two replacement paths, the final files are the loop's
files. -/
theorem runScriptWith_files_other (l : List String) (pres : Bool) (fs : FS) {q : Path}
    (h1 : q ≠ [newAppDir, "index.tsx"]) (h2 : q ≠ [newAppDir, "_layout.tsx"]) :
    (runScriptWith l pres fs).files q =
      (l.foldl (processDir pres) (if pres then mkdirp [exampleDir] fs else fs)).files q := by
  unfold runScriptWith
  rw [writeFile_files_other h2, writeFile_files_other h1, mkdirp_files]

/-- The final directory map is the loop's map plus the recreated
entry-point directory. -/
theorem runScriptWith_dirs (l : List String) (pres : Bool) (fs : FS) :
    (runScriptWith l pres fs).dirs =
      (mkdirp [newAppDir]
        (l.foldl (processDir pres) (if pres then mkdirp [exampleDir] fs else fs))).dirs := rfl

/-- After a run, no source-set name other than `app` survives at top
level. -/
theorem runScript_clears_sources (pres : Bool) (fs : FS) :
    ∀ d ∈ oldDirs, d ≠ newAppDir →
    (runScript pres fs).dirs [d] = false ∧ (runScript pres fs).files [d] = none := by
  intro d hd hdn
  have hfold := fold_clears_mem pres oldDirs (if pres then mkdirp [exampleDir] fs else fs) d hd
  constructor
  · rw [runScript, runScriptWith_dirs, mkdirp_dirs_single hdn]
    exact hfold.1
  · rw [runScript,
      runScriptWith_files_other oldDirs pres fs (by simp) (by simp)]
    exact hfold.2

/-- After a run, the entry-point directory exists. -/
theorem runScript_app_dir (pres : Bool) (fs : FS) :
    (runScript pres fs).dirs [newAppDir] = true := by
  rw [runScript, runScriptWith_dirs]
  exact mkdirp_dirs_head _

/-- After the loop, nothing is left under the entry-point name. -/
theorem fold_app_files_none (pres : Bool) (fs : FS) (hwf : fs.WF) (p : Path) :
    (oldDirs.foldl (processDir pres)
      (if pres then mkdirp [exampleDir] fs else fs)).files (newAppDir :: p) = none := by
  set fs1 := if pres then mkdirp [exampleDir] fs else fs with hfs1
  have hfiles1 : fs1.files = fs.files := by
    rw [hfs1]
    cases pres
    · rfl
    · rfl
  have hdirs1 : fs1.dirs [newAppDir] = fs.dirs [newAppDir] := by
    rw [hfs1]
    cases pres
    · rfl
    · exact mkdirp_dirs_single newAppDir_ne_exampleDir fs
  rw [oldDirs_eq, List.foldl_cons]
  have hrest := fold_preserves_under pres ["components", "hooks", "constants", "scripts"]
    newAppDir restDirs_ne_app newAppDir_ne_exampleDir
  by_cases hex : existsOld fs1 newAppDir = true
  · have hstep : (processDir pres fs1 newAppDir).files (newAppDir :: p) = none := by
      simp only [processDir, hex, if_true]
      cases pres
      · exact clearUnder_head fs1.files none p
      · exact relocate_head fs1.files none p
    exact (hrest _ p).1.trans hstep
  · have hskip : processDir pres fs1 newAppDir = fs1 := by simp [processDir, hex]
    rw [hskip]
    have habs := (existsOld_eq_false_iff fs1 newAppDir).mp (by simpa using hex)
    refine (hrest fs1 p).1.trans ?_
    rw [hfiles1]
    cases p with
    | nil => exact hfiles1 ▸ habs.2
    | cons y r =>
      cases hq : fs.files (newAppDir :: y :: r) with
      | none => rfl
      | some c =>
        exfalso
        have hd : fs.dirs [newAppDir] = true :=
          hwf.1 [newAppDir] (y :: r) (by simp) (by simp) (by simp [hq])
        rw [← hdirs1] at hd
        rw [habs.1] at hd
        exact Bool.false_ne_true hd

/-- After the loop, no directory survives strictly below the entry-point
name. -/
theorem fold_app_dirs_none (pres : Bool) (fs : FS) (hwf : fs.WF) (p : Path) (hp : p ≠ []) :
    (oldDirs.foldl (processDir pres)
      (if pres then mkdirp [exampleDir] fs else fs)).dirs (newAppDir :: p) = false := by
  set fs1 := if pres then mkdirp [exampleDir] fs else fs with hfs1
  have hdirs1 : ∀ q : Path, q ≠ [] → fs1.dirs (newAppDir :: q) = fs.dirs (newAppDir :: q) := by
    intro q hq
    rw [hfs1]
    cases pres
    · rfl
    · cases q with
      | nil => exact absurd rfl hq
      | cons y r => exact mkdirp_dirs_long fs
  have hdirs1' : fs1.dirs [newAppDir] = fs.dirs [newAppDir] := by
    rw [hfs1]
    cases pres
    · rfl
    · exact mkdirp_dirs_single newAppDir_ne_exampleDir fs
  rw [oldDirs_eq, List.foldl_cons]
  have hrest := fold_preserves_under pres ["components", "hooks", "constants", "scripts"]
    newAppDir restDirs_ne_app newAppDir_ne_exampleDir
  by_cases hex : existsOld fs1 newAppDir = true
  · have hstep : (processDir pres fs1 newAppDir).dirs (newAppDir :: p) = false := by
      simp only [processDir, hex, if_true]
      cases pres
      · exact clearUnder_head fs1.dirs false p
      · exact relocate_head fs1.dirs false p
    exact (hrest _ p).2.trans hstep
  · have hskip : processDir pres fs1 newAppDir = fs1 := by simp [processDir, hex]
    rw [hskip]
    have habs := (existsOld_eq_false_iff fs1 newAppDir).mp (by simpa using hex)
    refine (hrest fs1 p).2.trans ?_
    rw [hdirs1 p hp]
    cases hq : fs.dirs (newAppDir :: p) with
    | false => rfl
    | true =>
      exfalso
      have hd : fs.dirs [newAppDir] = true :=
        hwf.2 [newAppDir] p (by simp) hp (by simpa using hq)
      rw [← hdirs1'] at hd
      rw [habs.1] at hd
      exact Bool.false_ne_true hd

/-- The entry-point directory ends up containing exactly the two
replacement files. -/
theorem runScript_app_exact (pres : Bool) (fs : FS) (hwf : fs.WF) (p : Path) (c : String) :
    (runScript pres fs).files (newAppDir :: p) = some c ↔
      (p = ["index.tsx"] ∧ c = indexContent) ∨ (p = ["_layout.tsx"] ∧ c = layoutContent) := by
  by_cases h1 : p = ["index.tsx"]
  · subst h1
    rw [show (newAppDir :: ["index.tsx"] : Path) = [newAppDir, "index.tsx"] from rfl,
      runScript, runScriptWith_index]
    constructor
    · intro h
      exact Or.inl ⟨rfl, (Option.some.inj h).symm⟩
    · rintro (⟨_, hc⟩ | ⟨hp, _⟩)
      · rw [hc]
      · exact absurd hp (by decide)
  · by_cases h2 : p = ["_layout.tsx"]
    · subst h2
      rw [show (newAppDir :: ["_layout.tsx"] : Path) = [newAppDir, "_layout.tsx"] from rfl,
        runScript, runScriptWith_layout]
      constructor
      · intro h
        exact Or.inr ⟨rfl, (Option.some.inj h).symm⟩
      · rintro (⟨hp, _⟩ | ⟨_, hc⟩)
        · exact absurd hp (by decide)
        · rw [hc]
    · have hq1 : (newAppDir :: p : Path) ≠ [newAppDir, "index.tsx"] := by
        intro h
        exact h1 (List.cons.inj h).2
      have hq2 : (newAppDir :: p : Path) ≠ [newAppDir, "_layout.tsx"] := by
        intro h
        exact h2 (List.cons.inj h).2
      rw [runScript, runScriptWith_files_other oldDirs pres fs hq1 hq2,
        fold_app_files_none pres fs hwf p]
      constructor
      · intro h
        cases h
      · rintro (⟨hp, _⟩ | ⟨hp, _⟩)
        · exact absurd hp h1
        · exact absurd hp h2

/-- No directory survives strictly below the recreated entry point. -/
theorem runScript_app_no_subdirs (pres : Bool) (fs : FS) (hwf : fs.WF) (p : Path) (hp : p ≠ []) :
    (runScript pres fs).dirs (newAppDir :: p) = false := by
  rw [runScript, runScriptWith_dirs]
  have hm : (mkdirp [newAppDir]
      (oldDirs.foldl (processDir pres) (if pres then mkdirp [exampleDir] fs else fs))).dirs
        (newAppDir :: p) =
      (oldDirs.foldl (processDir pres)
        (if pres then mkdirp [exampleDir] fs else fs)).dirs (newAppDir :: p) := by
    cases p with
    | nil => exact absurd rfl hp
    | cons y r => exact mkdirp_dirs_long _
  rw [hm]
  exact fold_app_dirs_none pres fs hwf p hp

/-! Section: Commutativity of the per-directory operations -/

theorem clearUnder_comm {α : Type} (p q : Path) (g : Path → α) (v : α) :
    clearUnder p (clearUnder q g v) v = clearUnder q (clearUnder p g v) v := by
  funext r
  simp only [clearUnder]
  split_ifs <;> rfl

theorem relocate_relocate_comm {α : Type} {a b e : String}
    (hab : a ≠ b) (hae : a ≠ e) (hbe : b ≠ e) (g : Path → α) (v : α) :
    relocate [a] [e, a] (relocate [b] [e, b] g v) v =
      relocate [b] [e, b] (relocate [a] [e, a] g v) v := by
  funext p
  rcases p with _ | ⟨x, _ | ⟨y, r⟩⟩
  · simp only [relocate_nil]
  · by_cases hxa : x = a
    · subst hxa
      simp only [relocate_head, relocate_single_other hab]
    · by_cases hxb : x = b
      · subst hxb
        simp only [relocate_head, relocate_single_other (Ne.symm hab)]
      · by_cases hxe : x = e
        · subst hxe
          simp only [relocate_singleton_e hae, relocate_singleton_e hbe]
        · simp only [relocate_single_other hxa, relocate_single_other hxb]
  · by_cases hxa : x = a
    · subst hxa
      simp only [relocate_head, relocate_other hab hae]
    · by_cases hxb : x = b
      · subst hxb
        simp only [relocate_head, relocate_other (Ne.symm hab) hbe]
      · by_cases hxe : x = e
        · subst hxe
          by_cases hya : y = a
          · subst hya
            simp only [relocate_dest hae, relocate_dest_other hbe hab,
              relocate_other hab hae]
          · by_cases hyb : y = b
            · subst hyb
              simp only [relocate_dest hbe, relocate_dest_other hae (Ne.symm hab),
                relocate_other (Ne.symm hab) hbe]
            · simp only [relocate_dest_other hae hya, relocate_dest_other hbe hyb]
        · simp only [relocate_other hxa hxe, relocate_other hxb hxe]

theorem rmTree_comm (p q : Path) (fs : FS) :
    rmTree p (rmTree q fs) = rmTree q (rmTree p fs) := by
  apply FS.ext2
  · intro r
    exact congrFun (clearUnder_comm p q fs.files none) r
  · intro r
    exact congrFun (clearUnder_comm p q fs.dirs false) r

theorem moveDir_comm {a b : String} (hab : a ≠ b)
    (hae : a ≠ exampleDir) (hbe : b ≠ exampleDir) (fs : FS) :
    moveDir [a] [exampleDir, a] (moveDir [b] [exampleDir, b] fs) =
      moveDir [b] [exampleDir, b] (moveDir [a] [exampleDir, a] fs) := by
  apply FS.ext2
  · intro r
    exact congrFun (relocate_relocate_comm hab hae hbe fs.files none) r
  · intro r
    exact congrFun (relocate_relocate_comm hab hae hbe fs.dirs false) r

/-- An iteration on an existing name acts by move or removal. -/
theorem processDir_act (pres : Bool) (fs : FS) (d : String) (hex : existsOld fs d = true) :
    processDir pres fs d =
      if pres then moveDir [d] [exampleDir, d] fs else rmTree [d] fs := by
  simp [processDir, hex]

/-- An iteration on an absent name is a no-op. -/
theorem processDir_skip (pres : Bool) (fs : FS) (d : String) (hex : existsOld fs d = false) :
    processDir pres fs d = fs := by
  simp [processDir, hex]

/-- Two loop iterations on different source names commute. -/
theorem processDir_comm (pres : Bool) (fs : FS) {a b : String}
    (hae : a ≠ exampleDir) (hbe : b ≠ exampleDir) :
    processDir pres (processDir pres fs a) b = processDir pres (processDir pres fs b) a := by
  by_cases hab : a = b
  · subst hab
    rfl
  · have hEa : existsOld (processDir pres fs b) a = existsOld fs a :=
      existsOld_processDir_other pres fs (Ne.symm hab)
    have hEb : existsOld (processDir pres fs a) b = existsOld fs b :=
      existsOld_processDir_other pres fs hab
    by_cases hexa : existsOld fs a = true
    · by_cases hexb : existsOld fs b = true
      · rw [processDir_act pres _ b (hEb.trans hexb), processDir_act pres _ a (hEa.trans hexa),
          processDir_act pres fs a hexa, processDir_act pres fs b hexb]
        cases pres
        · simp only [Bool.false_eq_true, if_false]
          exact rmTree_comm [b] [a] fs
        · simp only [if_true]
          exact moveDir_comm (Ne.symm hab) hbe hae fs
      · have hexb0 : existsOld fs b = false := by simpa using hexb
        rw [processDir_skip pres _ b (hEb.trans hexb0), processDir_skip pres fs b hexb0]
    · have hexa0 : existsOld fs a = false := by simpa using hexa
      rw [processDir_skip pres _ a (hEa.trans hexa0), processDir_skip pres fs a hexa0]

/-- Folding pairwise-commuting iterations is invariant under permutation
of the processed list. -/
theorem foldl_perm_of_comm {α β : Type} (f : β → α → β) {l₁ l₂ : List α} (h : l₁.Perm l₂) :
    (∀ a ∈ l₁, ∀ b ∈ l₁, ∀ s, f (f s a) b = f (f s b) a) →
    ∀ s, l₁.foldl f s = l₂.foldl f s := by
  induction h with
  | nil =>
    intro _ s
    rfl
  | cons x h ih =>
    intro hc s
    simp only [List.foldl_cons]
    exact ih (fun a ha b hb s => hc a (List.mem_cons_of_mem x ha) b (List.mem_cons_of_mem x hb) s)
      (f s x)
  | swap x y t =>
    intro hc s
    simp only [List.foldl_cons]
    rw [hc y (by simp) x (by simp) s]
  | trans h₁ h₂ ih₁ ih₂ =>
    intro hc s
    rw [ih₁ hc s,
      ih₂ (fun a ha b hb s => hc a (h₁.mem_iff.mpr ha) b (h₁.mem_iff.mpr hb) s) s]

/-- On a fault-free run, the observable filesystem of the fault-injected
script is that of the pure script. -/
theorem runScriptFault_fs_of_ok (faults : String → Bool) (pres : Bool) (fs : FS)
    (h : (runScriptFault faults pres fs).errorMsg = none) :
    (runScriptFault faults pres fs).fs = runScript pres fs := by
  cases hr : runDirsE faults pres oldDirs (if pres then mkdirp [exampleDir] fs else fs) with
  | mk fs2 msg =>
    cases msg with
    | none =>
      have hfold := runDirsE_ok faults pres oldDirs _ _ hr
      simp only [runScriptFault, hr]
      rw [runScript, runScriptWith, hfold]
    | some d =>
      exfalso
      simp [runScriptFault, hr] at h

/-- The quoted catch block only logs, so the process always exits with
code 0. -/
theorem runScriptFault_exitCode_zero (faults : String → Bool) (pres : Bool) (fs : FS) :
    (runScriptFault faults pres fs).exitCode = 0 := by
  cases hr : runDirsE faults pres oldDirs (if pres then mkdirp [exampleDir] fs else fs) with
  | mk fs2 msg =>
    cases msg with
    | none => simp [runScriptFault, hr]
    | some d => simp [runScriptFault, hr]

theorem base_true (fs : FS) :
    (if true then mkdirp [exampleDir] fs else fs) = mkdirp [exampleDir] fs := rfl

theorem base_false (fs : FS) :
    (if false then mkdirp [exampleDir] fs else fs) = fs := rfl

/-! Section: Claims -/

/-- C1 (original statement is refuted): after the successful preserve run
on the empty project, `app` — a member of the fixed source set — exists at
its original top-level location, contradicting the claim's requirement
that no directory of the fixed source set exists at its original top-level
location while `app` also exists. -/
theorem c1_counterexample :
    newAppDir ∈ oldDirs ∧
    (runScriptFault noFaults true fsEmpty).errorMsg = none ∧
    (runScriptFault noFaults true fsEmpty).fs.dirs [newAppDir] = true :=
  ⟨by decide, by decide, by decide⟩

/-- C1 (amended): for every well-formed filesystem and every successful
run (either choice), no source-set name other than the entry-point name
`app` survives at top level, and the entry-point directory exists
containing exactly the two replacement files with their fixed contents
and no subdirectories. -/
theorem c1_theorem (fs : FS) (hwf : fs.WF) (faults : String → Bool) (pres : Bool)
    (hok : (runScriptFault faults pres fs).errorMsg = none) :
    (∀ d ∈ oldDirs, d ≠ newAppDir →
      (runScriptFault faults pres fs).fs.dirs [d] = false ∧
        (runScriptFault faults pres fs).fs.files [d] = none) ∧
    (runScriptFault faults pres fs).fs.dirs [newAppDir] = true ∧
    (∀ p c, (runScriptFault faults pres fs).fs.files (newAppDir :: p) = some c ↔
      (p = ["index.tsx"] ∧ c = indexContent) ∨ (p = ["_layout.tsx"] ∧ c = layoutContent)) ∧
    (∀ p, p ≠ [] → (runScriptFault faults pres fs).fs.dirs (newAppDir :: p) = false) := by
  rw [runScriptFault_fs_of_ok faults pres fs hok]
  exact ⟨runScript_clears_sources pres fs, runScript_app_dir pres fs,
    fun p c => runScript_app_exact pres fs hwf p c,
    fun p hp => runScript_app_no_subdirs pres fs hwf p hp⟩

/-- C1 witness: the amended theorem applied to the empty project in delete
mode. -/
theorem c1_theorem_witness :
    fsEmpty.WF ∧ (runScriptFault noFaults false fsEmpty).errorMsg = none ∧
    (runScriptFault noFaults false fsEmpty).fs.dirs [newAppDir] = true := by
  have hwf : fsEmpty.WF :=
    ⟨fun q r _ _ h => by simp [fsEmpty] at h, fun q r _ _ h => by simp [fsEmpty] at h⟩
  exact ⟨hwf, by decide, (c1_theorem fsEmpty hwf noFaults false (by decide)).2.1⟩

/-- C2: when all source-set directories exist, a preserve run makes every
marker file (a file under a source directory whose contents are not one of
the two replacement texts) reachable under the archive directory, and no
marker file remains at its original path. -/
theorem c2_theorem (fs : FS) (hall : ∀ d ∈ oldDirs, fs.dirs [d] = true)
    (d : String) (hd : d ∈ oldDirs) (r : Path) (c : String)
    (hm : fs.files (d :: r) = some c) (hc1 : c ≠ indexContent) (hc2 : c ≠ layoutContent) :
    (runScript true fs).files (exampleDir :: d :: r) = some c ∧
      (runScript true fs).files (d :: r) ≠ some c := by
  have hde : d ≠ exampleDir := exampleDir_not_mem_oldDirs d hd
  have hex : existsOld (mkdirp [exampleDir] fs) d = true := by
    rw [existsOld_mkdirp_e fs hde]
    simp [existsOld, hall d hd]
  have hmv := fold_moves_marker oldDirs exampleDir_not_mem_oldDirs
    (mkdirp [exampleDir] fs) d hd r hex
  have hne1 : (exampleDir :: d :: r : Path) ≠ [newAppDir, "index.tsx"] := by
    intro h
    exact absurd (List.cons.inj h).1 (by decide)
  have hne2 : (exampleDir :: d :: r : Path) ≠ [newAppDir, "_layout.tsx"] := by
    intro h
    exact absurd (List.cons.inj h).1 (by decide)
  constructor
  · rw [runScript, runScriptWith_files_other oldDirs true fs hne1 hne2, base_true, hmv.1,
      mkdirp_files]
    exact hm
  · intro hcontra
    by_cases h1 : (d :: r : Path) = [newAppDir, "index.tsx"]
    · rw [runScript, h1, runScriptWith_index] at hcontra
      exact hc1 (Option.some.inj hcontra).symm
    · by_cases h2 : (d :: r : Path) = [newAppDir, "_layout.tsx"]
      · rw [runScript, h2, runScriptWith_layout] at hcontra
        exact hc2 (Option.some.inj hcontra).symm
      · rw [runScript, runScriptWith_files_other oldDirs true fs h1 h2, base_true,
          hmv.2] at hcontra
        cases hcontra

/-- C2 witness: the marker in `components` of the concrete marker project
is archived and gone from its original path. -/
theorem c2_theorem_witness :
    (∀ d ∈ oldDirs, fsMarkers.dirs [d] = true) ∧
    fsMarkers.files ["components", "marker-components.txt"] = some "MARK-components" ∧
    (runScript true fsMarkers).files
        (exampleDir :: "components" :: ["marker-components.txt"]) = some "MARK-components" ∧
    (runScript true fsMarkers).files
        ("components" :: ["marker-components.txt"]) ≠ some "MARK-components" := by
  have h := c2_theorem fsMarkers (by decide) "components" (by decide)
    ["marker-components.txt"] "MARK-components" rfl (by decide) (by decide)
  exact ⟨by decide, rfl, h.1, h.2⟩

/-- C3: when all source-set directories exist and a content string occurs
only in files under source directories (and is not one of the replacement
texts), a delete run leaves no file with that content anywhere. -/
theorem c3_theorem (fs : FS) (hall : ∀ d ∈ oldDirs, fs.dirs [d] = true) (c : String)
    (hmark : ∀ q : Path, fs.files q = some c → ∃ d r, q = d :: r ∧ d ∈ oldDirs)
    (hc1 : c ≠ indexContent) (hc2 : c ≠ layoutContent) :
    ∀ q : Path, (runScript false fs).files q ≠ some c := by
  intro q h
  by_cases h1 : q = [newAppDir, "index.tsx"]
  · rw [runScript, h1, runScriptWith_index] at h
    exact hc1 (Option.some.inj h).symm
  · by_cases h2 : q = [newAppDir, "_layout.tsx"]
    · rw [runScript, h2, runScriptWith_layout] at h
      exact hc2 (Option.some.inj h).symm
    · rw [runScript, runScriptWith_files_other oldDirs false fs h1 h2, base_false] at h
      rcases foldDelete_files_le oldDirs fs q with he | he
      · rw [he] at h
        rcases hmark q h with ⟨d, r, hq, hd⟩
        subst hq
        have hex : existsOld fs d = true := by
          simp [existsOld, hall d hd]
        have hnone := foldDelete_clears oldDirs fs d hd r hex
        rw [he, h] at hnone
        cases hnone
      · rw [he] at h
        cases h

/-- C3 witness: the `app` marker of the concrete marker project no longer
exists at its original path after a delete run. -/
theorem c3_theorem_witness :
    (∀ d ∈ oldDirs, fsMarkers.dirs [d] = true) ∧
    fsMarkers.files ["app", "marker-app.txt"] = some "MARK-app" ∧
    (runScript false fsMarkers).files ["app", "marker-app.txt"] ≠ some "MARK-app" := by
  have hmark : ∀ q : Path, fsMarkers.files q = some "MARK-app" →
      ∃ d r, q = d :: r ∧ d ∈ oldDirs := by
    intro q hq
    by_cases h1 : q = ["app", "marker-app.txt"]
    · exact ⟨"app", ["marker-app.txt"], h1, by decide⟩
    · exfalso
      simp only [fsMarkers, h1, if_false] at hq
      split_ifs at hq with h2 h3 h4 h5
      · exact absurd (Option.some.inj hq) (by decide)
      · exact absurd (Option.some.inj hq) (by decide)
      · exact absurd (Option.some.inj hq) (by decide)
      · exact absurd (Option.some.inj hq) (by decide)
  exact ⟨by decide, rfl,
    c3_theorem fsMarkers (by decide) "MARK-app" hmark (by decide) (by decide)
      ["app", "marker-app.txt"]⟩

/-- C4 (original statement is refuted): on the concrete project holding an
`app` directory, a fault on the `app` move produces an error, yet the
process exit code is 0 (the quoted catch block only logs), not non-zero as
the claim states. -/
theorem c4_counterexample :
    (runScriptFault faultApp true fsApp).errorMsg.isSome = true ∧
    (runScriptFault faultApp true fsApp).exitCode = 0 :=
  ⟨by decide, by decide⟩

/-- C4 (amended): when a filesystem error occurs during a directory move
or deletion, the run stops at the first faulting directory of the source
list: the completed iterations remain applied (no rollback), nothing after
the fault runs — in particular the replacement files are not written, the
final state being exactly the pre-fault fold — the error message names the
failing directory, and the process exits with code 0 rather than a
non-zero code. -/
theorem c4_theorem (faults : String → Bool) (pres : Bool) (fs : FS) (m : String)
    (h : (runScriptFault faults pres fs).errorMsg = some m) :
    (runScriptFault faults pres fs).exitCode = 0 ∧
    ∃ pre d post, oldDirs = pre ++ d :: post ∧ faults d = true ∧
      m = "Error during script execution: " ++ d ∧
      (runScriptFault faults pres fs).fs =
        pre.foldl (processDir pres) (if pres then mkdirp [exampleDir] fs else fs) ∧
      existsOld ((runScriptFault faults pres fs).fs) d = true := by
  refine ⟨runScriptFault_exitCode_zero faults pres fs, ?_⟩
  cases hr : runDirsE faults pres oldDirs (if pres then mkdirp [exampleDir] fs else fs) with
  | mk fs2 msg =>
    cases msg with
    | none =>
      exfalso
      simp [runScriptFault, hr] at h
    | some d =>
      have hm : m = "Error during script execution: " ++ d := by
        have h' := h
        simp only [runScriptFault, hr] at h'
        exact (Option.some.inj h').symm
      have hfs : (runScriptFault faults pres fs).fs = fs2 := by
        simp [runScriptFault, hr]
      rcases runDirsE_error faults pres oldDirs _ _ _ hr with ⟨pre, post, hl, hfold, hex, hf⟩
      exact ⟨pre, d, post, hl, hf, hm, by rw [hfs, hfold], by rw [hfs]; exact hex⟩

/-- C4 witness: the amended theorem applied to the faulting `app` move. -/
theorem c4_theorem_witness :
    (runScriptFault faultApp true fsApp).errorMsg =
      some ("Error during script execution: " ++ "app") ∧
    (runScriptFault faultApp true fsApp).exitCode = 0 :=
  ⟨by decide,
    (c4_theorem faultApp true fsApp ("Error during script execution: " ++ "app") (by decide)).1⟩

/-- C5: an empty input line is normalized to `"y"`, is interpreted exactly
like an explicit `"y"`, and the tool's subsequent filesystem behavior is
identical in the two cases (also under fault injection). -/
theorem c5_theorem :
    normalizeAnswer "" = "y" ∧ interpretAnswer "" = interpretAnswer "y" ∧
    (∀ fs : FS, resetProject "" fs = resetProject "y" fs) ∧
    (∀ faults : String → Bool, ∀ fs : FS,
      resetProjectFault faults "" fs = resetProjectFault faults "y" fs) := by
  refine ⟨by decide, by decide, fun fs => ?_, fun faults fs => ?_⟩
  · rw [resetProject, resetProject, show interpretAnswer "" = interpretAnswer "y" from by decide]
  · rw [resetProjectFault, resetProjectFault,
      show interpretAnswer "" = interpretAnswer "y" from by decide]

/-- C6: on a project containing none of the source-set names, every run —
any fault injection, either choice — reports no error, exits with code 0,
and still writes the two replacement files with their fixed contents. -/
theorem c6_theorem (fs : FS) (hnone : ∀ d ∈ oldDirs, existsOld fs d = false)
    (faults : String → Bool) (pres : Bool) :
    (runScriptFault faults pres fs).errorMsg = none ∧
    (runScriptFault faults pres fs).exitCode = 0 ∧
    (runScriptFault faults pres fs).fs.files [newAppDir, "index.tsx"] = some indexContent ∧
    (runScriptFault faults pres fs).fs.files [newAppDir, "_layout.tsx"] = some layoutContent := by
  have hnone1 : ∀ d ∈ oldDirs, existsOld (if pres then mkdirp [exampleDir] fs else fs) d = false := by
    intro d hd
    cases pres
    · exact hnone d hd
    · rw [base_true, existsOld_mkdirp_e fs (exampleDir_not_mem_oldDirs d hd)]
      exact hnone d hd
  have hrun := runDirsE_skip_all faults pres oldDirs _ hnone1
  refine ⟨?_, ?_, ?_, ?_⟩
  · simp [runScriptFault, hrun]
  · simp [runScriptFault, hrun]
  · simp only [runScriptFault, hrun]
    rw [writeFile_files_other index_path_ne_layout_path]
    exact writeFile_files_same _ _ _
  · simp only [runScriptFault, hrun]
    exact writeFile_files_same _ _ _

/-- C6 witness: the empty project, a fault function that would fire on
`app`, delete mode. -/
theorem c6_theorem_witness :
    (∀ d ∈ oldDirs, existsOld fsEmpty d = false) ∧
    (runScriptFault faultApp false fsEmpty).errorMsg = none ∧
    (runScriptFault faultApp false fsEmpty).fs.files [newAppDir, "index.tsx"] =
      some indexContent :=
  ⟨by decide, (c6_theorem fsEmpty (by decide) faultApp false).1,
    (c6_theorem fsEmpty (by decide) faultApp false).2.2.1⟩

/-- C7: processing the source list in any permutation of its declared
order produces the same final filesystem, for every initial state and
either choice. -/
theorem c7_theorem (l : List String) (hperm : l.Perm oldDirs) (pres : Bool) (fs : FS) :
    runScriptWith l pres fs = runScript pres fs := by
  have hc : ∀ a ∈ l, ∀ b ∈ l, ∀ s : FS,
      processDir pres (processDir pres s a) b = processDir pres (processDir pres s b) a :=
    fun a ha b hb s =>
      processDir_comm pres s (exampleDir_not_mem_oldDirs a (hperm.subset ha))
        (exampleDir_not_mem_oldDirs b (hperm.subset hb))
  rw [runScript, runScriptWith, runScriptWith,
    foldl_perm_of_comm (processDir pres) hperm hc
      (if pres then mkdirp [exampleDir] fs else fs)]

/-- C7 witness: the reversed order on the concrete marker project. -/
theorem c7_theorem_witness :
    (["scripts", "constants", "hooks", "components", "app"] : List String).Perm oldDirs ∧
    runScriptWith ["scripts", "constants", "hooks", "components", "app"] true fsMarkers =
      runScript true fsMarkers :=
  ⟨by decide, c7_theorem ["scripts", "constants", "hooks", "components", "app"]
    (by decide) true fsMarkers⟩

/-- C8 (original statement is refuted): before hydration, the web
color-scheme hook does not return what the underlying framework primitive
returns — with the primitive reporting dark, the hook returns light. -/
theorem c8_counterexample :
    useColorSchemeWeb false (some Scheme.dark) ≠ useColorScheme (some Scheme.dark) := by
  decide

/-- C8 (amended): the native `useColorScheme` re-export returns exactly
the primitive's value; the web variant does so only once hydrated and
returns `'light'` before hydration; and `useThemeColor` does not delegate —
it returns either the `Colors`-table entry for the detected theme or a
prop-supplied color, never (in general) the primitive's value itself. -/
theorem c8_theorem :
    (∀ s : Option Scheme, useColorScheme s = s) ∧
    (∀ s : Option Scheme, useColorSchemeWeb true s = s) ∧
    (∀ s : Option Scheme, useColorSchemeWeb false s = some Scheme.light) ∧
    (∀ pr : ThemeProps, ∀ cn : ColorName, ∀ s : Option Scheme,
      useThemeColor pr cn s = Colors ((useColorScheme s).getD Scheme.light) cn ∨
        propColor pr ((useColorScheme s).getD Scheme.light) = some (useThemeColor pr cn s)) := by
  refine ⟨fun s => rfl, fun s => rfl, fun s => rfl, fun pr cn s => ?_⟩
  unfold useThemeColor
  cases hp : propColor pr ((useColorScheme s).getD Scheme.light) with
  | none => exact Or.inl (by simp [hp])
  | some c =>
    by_cases hc : c = ""
    · exact Or.inl (by simp [hp, hc])
    · exact Or.inr (by simp [hp, hc])

/-- C9 (original statement is refuted): with a null scheme and a present
but empty `light` prop — a color string for the detected theme — the hook
returns the `Colors`-table entry, not the prop string, because JavaScript
truthiness discards the empty string. -/
theorem c9_counterexample :
    propColor ⟨some "", none⟩ Scheme.light = some "" ∧
    useThemeColor ⟨some "", none⟩ ColorName.text none ≠ "" :=
  ⟨rfl, by decide⟩

/-- C9 (amended): `useThemeColor` returns the prop color for the detected
theme when it is present and non-empty, otherwise returns
`Colors[theme][colorName]` (also when the prop is the empty string), and
a null scheme defaults the theme to light. -/
theorem c9_theorem (pr : ThemeProps) (cn : ColorName) (s : Option Scheme) :
    (s = none → (useColorScheme s).getD Scheme.light = Scheme.light) ∧
    (∀ c, propColor pr ((useColorScheme s).getD Scheme.light) = some c → c ≠ "" →
      useThemeColor pr cn s = c) ∧
    ((propColor pr ((useColorScheme s).getD Scheme.light) = none ∨
        propColor pr ((useColorScheme s).getD Scheme.light) = some "") →
      useThemeColor pr cn s = Colors ((useColorScheme s).getD Scheme.light) cn) := by
  refine ⟨fun hs => by rw [hs]; rfl, fun c hc hne => ?_, fun hp => ?_⟩
  · unfold useThemeColor
    simp [hc, hne]
  · unfold useThemeColor
    rcases hp with hp | hp
    · simp [hp]
    · simp [hp]

/-- C9 witness: a non-empty prop is returned; an absent prop falls back to
the table. -/
theorem c9_theorem_witness :
    useThemeColor ⟨some "#123456", none⟩ ColorName.text none = "#123456" ∧
    useThemeColor ⟨none, none⟩ ColorName.text none = Colors Scheme.light ColorName.text :=
  ⟨(c9_theorem ⟨some "#123456", none⟩ ColorName.text none).2.1 "#123456" rfl (by decide),
    (c9_theorem ⟨none, none⟩ ColorName.text none).2.2 (Or.inl rfl)⟩

/-- C10: confirmation input is trimmed and lowercased before comparison;
`"Y"`, `" y "` and `"y"` all normalize to `"y"`, are all interpreted as
affirmative, and produce identical subsequent filesystem behavior. -/
theorem c10_theorem :
    normalizeAnswer "Y" = "y" ∧ normalizeAnswer " y " = "y" ∧ normalizeAnswer "y" = "y" ∧
    interpretAnswer "Y" = true ∧ interpretAnswer " y " = true ∧ interpretAnswer "y" = true ∧
    (∀ fs : FS, resetProject "Y" fs = resetProject "y" fs) ∧
    (∀ fs : FS, resetProject " y " fs = resetProject "y" fs) := by
  refine ⟨by decide, by decide, by decide, by decide, by decide, by decide,
    fun fs => ?_, fun fs => ?_⟩
  · rw [resetProject, resetProject, show interpretAnswer "Y" = interpretAnswer "y" from by decide]
  · rw [resetProject, resetProject,
      show interpretAnswer " y " = interpretAnswer "y" from by decide]

end LearnRN
